import Mathlib

/-!
Verification of the md-to-notion synchronization engine
(`src/sync-to-notion.ts`) against its natural-language specification.

The TypeScript source is shallowly embedded: each relevant function is
translated into an executable Lean definition over explicit state, and the
spec's claims are stated and proved as theorems about those definitions.
-/

namespace MdToNotion

/-! ### Data model

`Block` models a Notion block object as the sync engine sees it: a type
discriminator, an opaque payload (standing for the `rich_text`-like content
compared by the merge engine), an optional identity (`id` is absent on
freshly produced request blocks, present on blocks fetched from the API),
and the nested children that in the JSON live under `block[block.type].children`.
-/

inductive Block where
  | mk (btype : String) (payload : String) (id : Option String) (children : List Block)
deriving Repr

def Block.btype : Block → String
  | .mk t _ _ _ => t

def Block.payload : Block → String
  | .mk _ p _ _ => p

def Block.id : Block → Option String
  | .mk _ _ i _ => i

def Block.children : Block → List Block
  | .mk _ _ _ c => c

/-- `{...firstBlock, id: undefined}` — a copy of a block with its identity cleared
(`src/sync-to-notion.ts:604-608`). -/
def Block.clearId : Block → Block
  | .mk t p _ c => .mk t p none c

/-- Replace a block's nested children (used when the caller detaches them,
`delete block.bulleted_list_item?.children`, `src/sync-to-notion.ts:359`). -/
def Block.withChildren : Block → List Block → Block
  | .mk t p i _, c => .mk t p i c

/-! ### Resilient call layer: `retryWithBackoff` (`src/sync-to-notion.ts:51-85`)

A fallible remote operation is embedded as `fn : Nat → Except JsError α`,
giving the outcome of its `attempt`-th invocation (1-based, matching the
source's loop counter).  The embedding returns the final outcome together
with the number of invocations made and the list of back-off delays slept,
in order.
-/

structure JsError where
  status : Option Nat
deriving Repr, DecidableEq

/-- `error.status === 429 || error.status === 503` (`src/sync-to-notion.ts:65-69`). -/
def isRateLimit (e : JsError) : Bool :=
  e.status == some 429 || e.status == some 503

/-- One iteration of the `for (let attempt = 1; attempt <= maxAttempts; ...)` loop
of `retryWithBackoff`.  Inside the loop body the source invariant
`attempt <= maxAttempts` holds, so the source's `attempt === maxAttempts`
stop condition is rendered as `maxAttempts <= attempt`. -/
def retryAux {α : Type} (fn : Nat → Except JsError α) (initialDelay maxAttempts : Nat)
    (attempt : Nat) : Except JsError α × Nat × List Nat :=
  match fn attempt with
  | .ok v => (.ok v, 1, [])
  | .error e =>
    if maxAttempts ≤ attempt ∨ ¬ isRateLimit e then
      (.error e, 1, [])
    else
      let d := initialDelay * 2 ^ (attempt - 1)
      let r := retryAux fn initialDelay maxAttempts (attempt + 1)
      (r.1, r.2.1 + 1, d :: r.2.2)
termination_by maxAttempts - attempt
decreasing_by simp_wf; omega

/-- `retryWithBackoff(fn, maxAttempts, initialDelay)` (`src/sync-to-notion.ts:51-85`):
result, number of invocations of `fn`, and the slept delays.  When
`maxAttempts = 0` the loop body never runs and the trailing
`throw lastError || new Error(...)` raises the fallback error. -/
def retryWithBackoff {α : Type} (fn : Nat → Except JsError α)
    (maxAttempts initialDelay : Nat) : Except JsError α × Nat × List Nat :=
  if maxAttempts = 0 then (.error ⟨none⟩, 0, [])
  else retryAux fn initialDelay maxAttempts 1

lemma retryAux_all_rate_limited {α : Type} (fn : Nat → Except JsError α)
    (e : Nat → JsError) (d m : Nat)
    (hfail : ∀ k, fn k = .error (e k)) (hrl : ∀ k, isRateLimit (e k) = true) :
    ∀ k a, 1 ≤ a → a ≤ m → m - a = k →
      retryAux fn d m a =
        (.error (e m), m - a + 1, (List.range' (a - 1) (m - a)).map (fun i => d * 2 ^ i)) := by
  intro k
  induction k with
  | zero =>
    intro a ha ham hk
    have haeq : a = m := by omega
    subst haeq
    rw [retryAux, hfail a]
    dsimp only
    rw [if_pos (Or.inl le_rfl)]
    simp [hk]
  | succ n ih =>
    intro a ha ham hk
    have hlt : a < m := by omega
    rw [retryAux, hfail a]
    dsimp only
    rw [if_neg (by simp [hrl a]; omega)]
    rw [ih (a + 1) (by omega) (by omega) (by omega)]
    refine Prod.ext rfl (Prod.ext ?_ ?_)
    · simp; omega
    · have hrange : List.range' (a - 1) (m - a) = (a - 1) :: List.range' a (m - (a + 1)) := by
        have h1 : m - a = (m - (a + 1)) + 1 := by omega
        have h2 : a - 1 + 1 = a := by omega
        rw [h1, List.range'_succ, h2]
      simp [hrange]

/-- C2 helper: the full loop starting at attempt 1 when every invocation fails
with a transient signal. -/
lemma retryWithBackoff_all_rate_limited {α : Type} (fn : Nat → Except JsError α)
    (e : Nat → JsError) (d m : Nat) (hm : 1 ≤ m)
    (hfail : ∀ k, fn k = .error (e k)) (hrl : ∀ k, isRateLimit (e k) = true) :
    retryWithBackoff fn m d =
      (.error (e m), m, (List.range (m - 1)).map (fun i => d * 2 ^ i)) := by
  rw [retryWithBackoff, if_neg (by omega)]
  rw [retryAux_all_rate_limited fn e d m hfail hrl (m - 1) 1 le_rfl hm (by omega)]
  rw [List.range_eq_range']
  refine Prod.ext rfl (Prod.ext ?_ rfl)
  simp; omega

/-- C2 helper: a first failure that is not a transient signal is rethrown at once. -/
lemma retryWithBackoff_non_transient {α : Type} (fn : Nat → Except JsError α)
    (e : JsError) (d m : Nat) (hm : 1 ≤ m)
    (hfail : fn 1 = .error e) (hrl : isRateLimit e = false) :
    retryWithBackoff fn m d = (.error e, 1, []) := by
  rw [retryWithBackoff, if_neg (by omega), retryAux, hfail]
  dsimp only
  rw [if_pos (Or.inr (by simp [hrl]))]

/-- **C2.** For an operation that fails with a transient rate-limit/overload
signal (status 429 or 503) on every invocation, `retryWithBackoff` with
`maxAttempts ≥ 1` invokes the operation exactly `maxAttempts` times, sleeping
`initialDelay * 2^(attempt-1)` after each failed attempt except the last, and
propagates the last error; whereas a failure that is not a transient signal is
rethrown immediately after a single invocation. -/
theorem retryWithBackoff_spec {α : Type} (fn : Nat → Except JsError α)
    (d m : Nat) (hm : 1 ≤ m) :
    ((∀ e : Nat → JsError, (∀ k, fn k = .error (e k)) → (∀ k, isRateLimit (e k) = true) →
        retryWithBackoff fn m d =
          (.error (e m), m, (List.range (m - 1)).map (fun i => d * 2 ^ i))) ∧
     (∀ e : JsError, fn 1 = .error e → isRateLimit e = false →
        retryWithBackoff fn m d = (.error e, 1, []))) := by
  constructor
  · intro e hfail hrl
    exact retryWithBackoff_all_rate_limited fn e d m hm hfail hrl
  · intro e hfail hrl
    exact retryWithBackoff_non_transient fn e d m hm hfail hrl

/-- **C2 witness.** A concrete always-429 operation with `maxAttempts = 3`,
`initialDelay = 100`: three invocations, delays `[100, 200]`, last error
propagated; and a concrete status-500 failure rethrown after one invocation. -/
theorem retryWithBackoff_spec_witness :
    retryWithBackoff (α := Unit) (fun _ => .error ⟨some 429⟩) 3 100 =
        (.error ⟨some 429⟩, 3, [100, 200]) ∧
      retryWithBackoff (α := Unit) (fun _ => .error ⟨some 500⟩) 3 100 =
        (.error ⟨some 500⟩, 1, []) := by
  constructor
  · have h := (retryWithBackoff_spec (α := Unit) (fun _ => .error ⟨some 429⟩) 100 3
      (by omega)).1 (fun _ => ⟨some 429⟩) (fun _ => rfl) (fun _ => rfl)
    simpa using h
  · exact (retryWithBackoff_spec (α := Unit) (fun _ => .error ⟨some 500⟩) 100 3
      (by omega)).2 ⟨some 500⟩ rfl rfl

/-! ### Orphan archival pass (`src/sync-to-notion.ts:691-752`)

When `deleteNonExistentFiles` is set, `syncToNotion` walks the PageIndex
entries sorted by ascending key length, skips the root page and every page
touched this run, skips entries with an already-archived ancestor path, and
archives the rest.  The embedding returns the list of `(key, pageId)` archive
calls in the order they are issued.
-/

structure NotionPageLink where
  id : String
  link : String
deriving Repr, DecidableEq

/-- Removal of every dash from `s` — the dash-insensitive page-id normalization
the source performs with a global-dash-regex replace (`src/sync-to-notion.ts:702-703`). -/
def normalizeId (s : String) : String :=
  String.mk (s.data.filter (fun c => c ≠ '-'))

/-- Splitting a character list at every `'/'`, keeping empty segments —
the behavior of the source's `key.split("/")`. -/
def splitSlashCs : List Char → List Char → List (List Char)
  | [], cur => [cur]
  | c :: rest, cur =>
    if c = '/' then cur :: splitSlashCs rest [] else splitSlashCs rest (cur ++ [c])

/-- Joining path segments with `'/'` — the behavior of the source's
`pathParts.slice(0, i).join("/")`. -/
def joinSlashCs : List (List Char) → List Char
  | [] => []
  | [p] => p
  | p :: q :: rest => p ++ '/' :: joinSlashCs (q :: rest)

/-- The ancestor paths the source checks for a key: for `pathParts = key.split("/")`
with more than one part, the prefixes of `pathParts` of `i` segments joined back
with slashes, for `i = 1 .. pathParts.length - 1` (`src/sync-to-notion.ts:713-733`). -/
def ancestorPaths (key : String) : List String :=
  let parts := splitSlashCs key.data []
  (List.range' 1 (parts.length - 1)).map (fun i => String.mk (joinSlashCs (parts.take i)))

/-- The `for (const [key, pageLink] of sortedEntries)` loop of the archival pass
(`src/sync-to-notion.ts:701-751`), with `archived` playing `archivedPages` and
the returned list recording each `archivePage` call as `(key, pageLink.id)`. -/
def archiveLoop (rootPageId : String) (touched : List String) :
    List (String × NotionPageLink) → List String → List (String × String)
  | [], _ => []
  | (key, pl) :: rest, archived =>
    if normalizeId pl.id = normalizeId rootPageId then
      archiveLoop rootPageId touched rest archived
    else if touched.contains pl.id then
      archiveLoop rootPageId touched rest archived
    else if (ancestorPaths key).any (fun a => archived.contains a) then
      archiveLoop rootPageId touched rest archived
    else
      (key, pl.id) :: archiveLoop rootPageId touched rest (key :: archived)

/-- Comparator used to sort PageIndex entries: `a[0].length - b[0].length`
(`src/sync-to-notion.ts:697-699`). -/
def keyLenLE (a b : String × NotionPageLink) : Prop :=
  a.1.length ≤ b.1.length

instance : DecidableRel keyLenLE := fun a b => Nat.decLe a.1.length b.1.length

/-- The archival pass of `syncToNotion` under `deleteNonExistentFiles = true`
(`src/sync-to-notion.ts:691-752`): sort the PageIndex entries by ascending key
length, then run the archive loop with an empty archived set. -/
def archivalPass (linkMap : List (String × NotionPageLink)) (rootPageId : String)
    (touched : List String) : List (String × String) :=
  archiveLoop rootPageId touched (List.insertionSort keyLenLE linkMap) []

lemma archiveLoop_root_free (rootPageId : String) (touched : List String) :
    ∀ entries archived p, p ∈ archiveLoop rootPageId touched entries archived →
      normalizeId p.2 ≠ normalizeId rootPageId := by
  intro entries
  induction entries with
  | nil => intro archived p hp; simp [archiveLoop] at hp
  | cons e rest ih =>
    intro archived p hp
    obtain ⟨key, pl⟩ := e
    rw [archiveLoop] at hp
    by_cases h1 : normalizeId pl.id = normalizeId rootPageId
    · rw [if_pos h1] at hp; exact ih archived p hp
    · rw [if_neg h1] at hp
      by_cases h2 : touched.contains pl.id
      · rw [if_pos h2] at hp; exact ih archived p hp
      · rw [if_neg h2] at hp
        by_cases h3 : (ancestorPaths key).any (fun a => archived.contains a)
        · rw [if_pos h3] at hp; exact ih archived p hp
        · rw [if_neg h3] at hp
          rcases List.mem_cons.mp hp with hhead | htail
          · subst hhead; exact h1
          · exact ih (key :: archived) p htail

/-- **C8.** With `deleteOrphans` enabled, the caller-supplied root page is never
archived: no archive call's page id equals the root page id when both are
compared with dashes removed, whatever the PageIndex and touched set are. -/
theorem archivalPass_never_archives_root (linkMap : List (String × NotionPageLink))
    (rootPageId : String) (touched : List String) :
    ∀ p ∈ archivalPass linkMap rootPageId touched,
      normalizeId p.2 ≠ normalizeId rootPageId := by
  intro p hp
  exact archiveLoop_root_free rootPageId touched _ [] p hp

/-- **C8 witness.** A PageIndex holding one orphan page and one entry carrying the
root's id (dash-formatted differently): the orphan is archived, and the theorem
applied to that call shows its id differs from the root id after normalization. -/
theorem archivalPass_never_archives_root_witness :
    ("./docs", "page1") ∈
        archivalPass [("./docs", ⟨"page1", "u1"⟩), ("./root", ⟨"ro-ot", "u0"⟩)] "roo-t" [] ∧
      normalizeId "page1" ≠ normalizeId "roo-t" := by
  constructor
  · decide
  · exact archivalPass_never_archives_root
      [("./docs", ⟨"page1", "u1"⟩), ("./root", ⟨"ro-ot", "u0"⟩)] "roo-t" []
      ("./docs", "page1") (by decide)

lemma splitSlashCs_ne_nil : ∀ cs cur, splitSlashCs cs cur ≠ [] := by
  intro cs
  induction cs with
  | nil => intro cur; simp [splitSlashCs]
  | cons c rest ih =>
    intro cur
    rw [splitSlashCs]
    by_cases hc : c = '/'
    · rw [if_pos hc]; simp
    · rw [if_neg hc]; exact ih (cur ++ [c])

lemma joinSlashCs_cons (p : List Char) (l : List (List Char)) (hl : l ≠ []) :
    joinSlashCs (p :: l) = p ++ '/' :: joinSlashCs l := by
  match l, hl with
  | q :: rest, _ => rfl

lemma joinSlashCs_splitSlashCs : ∀ cs cur, joinSlashCs (splitSlashCs cs cur) = cur ++ cs := by
  intro cs
  induction cs with
  | nil => intro cur; simp [splitSlashCs, joinSlashCs]
  | cons c rest ih =>
    intro cur
    rw [splitSlashCs]
    by_cases hc : c = '/'
    · rw [if_pos hc, joinSlashCs_cons cur _ (splitSlashCs_ne_nil rest []), ih []]
      simp [hc]
    · rw [if_neg hc, ih (cur ++ [c])]
      simp

lemma joinSlashCs_take_drop :
    ∀ (parts : List (List Char)) (i : Nat), 0 < i → i < parts.length →
      joinSlashCs parts =
        joinSlashCs (parts.take i) ++ '/' :: joinSlashCs (parts.drop i) := by
  intro parts
  induction parts with
  | nil => intro i h1 h2; simp at h2
  | cons p ps ih =>
    intro i h1 h2
    match i, h1 with
    | 1, _ =>
      have hps : ps ≠ [] := by
        intro h; rw [h] at h2; simp at h2
      simp only [List.take_succ_cons, List.take_zero, List.drop_succ_cons, List.drop_zero]
      rw [joinSlashCs_cons p ps hps]
      rfl
    | (j + 2), _ =>
      have hlen : j + 1 < ps.length := by simp at h2; omega
      have hps : ps ≠ [] := by
        intro h; rw [h] at hlen; simp at hlen
      have htake : ps.take (j + 1) ≠ [] := by
        intro h
        have := congrArg List.length h
        simp [Nat.min_eq_left (le_of_lt hlen)] at this
      simp only [List.take_succ_cons, List.drop_succ_cons]
      rw [joinSlashCs_cons p ps hps, joinSlashCs_cons p _ htake, ih (j + 1) (by omega) hlen]
      simp

lemma ancestorPaths_length_lt (a k : String) (ha : a ∈ ancestorPaths k) :
    a.length < k.length := by
  rw [ancestorPaths] at ha
  simp only [List.mem_map, List.mem_range'] at ha
  obtain ⟨i, ⟨j, hj, hij⟩, hval⟩ := ha
  rw [Nat.one_mul] at hij
  subst hij
  have hsplit := joinSlashCs_splitSlashCs k.data []
  rw [List.nil_append] at hsplit
  set parts := splitSlashCs k.data [] with hparts
  have hlt : 1 + j < parts.length := by omega
  have hdecomp := joinSlashCs_take_drop parts (1 + j) (by omega) hlt
  rw [hsplit] at hdecomp
  have hklen : k.length = k.data.length := rfl
  have halen : a.length = (joinSlashCs (parts.take (1 + j))).length := by
    rw [← hval]; rfl
  rw [hklen, hdecomp, halen]
  simp

lemma archiveLoop_sublist (rootPageId : String) (touched : List String) :
    ∀ entries archived,
      List.Sublist (archiveLoop rootPageId touched entries archived)
        (entries.map (fun e => (e.1, e.2.id))) := by
  intro entries
  induction entries with
  | nil => intro archived; simp [archiveLoop]
  | cons e rest ih =>
    intro archived
    obtain ⟨key, pl⟩ := e
    rw [archiveLoop]
    by_cases h1 : normalizeId pl.id = normalizeId rootPageId
    · rw [if_pos h1]; exact (ih archived).cons _
    · rw [if_neg h1]
      by_cases h2 : touched.contains pl.id
      · rw [if_pos h2]; exact (ih archived).cons _
      · rw [if_neg h2]
        by_cases h3 : (ancestorPaths key).any (fun a => archived.contains a)
        · rw [if_pos h3]; exact (ih archived).cons _
        · rw [if_neg h3]; exact (ih (key :: archived)).cons₂ _

lemma archiveLoop_ancestor_invariant (rootPageId : String) (touched : List String) :
    ∀ entries archived,
      ((∀ c ∈ archiveLoop rootPageId touched entries archived,
          ∀ x ∈ archived, x ∉ ancestorPaths c.1) ∧
       List.Pairwise (fun x y : String × String => x.1 ∉ ancestorPaths y.1)
         (archiveLoop rootPageId touched entries archived)) := by
  intro entries
  induction entries with
  | nil => intro archived; simp [archiveLoop]
  | cons e rest ih =>
    intro archived
    obtain ⟨key, pl⟩ := e
    rw [archiveLoop]
    by_cases h1 : normalizeId pl.id = normalizeId rootPageId
    · rw [if_pos h1]; exact ih archived
    · rw [if_neg h1]
      by_cases h2 : touched.contains pl.id
      · rw [if_pos h2]; exact ih archived
      · rw [if_neg h2]
        by_cases h3 : (ancestorPaths key).any (fun a => archived.contains a)
        · rw [if_pos h3]; exact ih archived
        · rw [if_neg h3]
          have hguard : ∀ x ∈ archived, x ∉ ancestorPaths key := by
            intro x hx hmem
            exact h3 (List.any_eq_true.mpr ⟨x, hmem, by simpa using hx⟩)
          constructor
          · intro c hc x hx
            rcases List.mem_cons.mp hc with hhead | htail
            · subst hhead; exact fun hmem => hguard x hx hmem
            · exact (ih (key :: archived)).1 c htail x (List.mem_cons_of_mem _ hx)
          · refine List.pairwise_cons.mpr ⟨?_, (ih (key :: archived)).2⟩
            intro c hc
            exact (ih (key :: archived)).1 c hc key (List.mem_cons_self _ _)

instance : IsTotal (String × NotionPageLink) keyLenLE :=
  ⟨fun a b => Nat.le_total a.1.length b.1.length⟩

instance : IsTrans (String × NotionPageLink) keyLenLE :=
  ⟨fun _ _ _ h1 h2 => Nat.le_trans h1 h2⟩

/-- **C4.** The archive calls of the orphan-archival pass are issued in
nondecreasing order of key length (shallowest paths first), and no archive call
is ever issued for a key one of whose ancestor path prefixes was itself
archived in the same run: every such candidate is skipped. -/
theorem archivalPass_sorted_and_skips_descendants
    (linkMap : List (String × NotionPageLink)) (rootPageId : String)
    (touched : List String) :
    (List.Pairwise (fun a b : String × String => a.1.length ≤ b.1.length)
        (archivalPass linkMap rootPageId touched) ∧
     List.Pairwise (fun a b : String × String => a.1 ∉ ancestorPaths b.1)
        (archivalPass linkMap rootPageId touched)) := by
  constructor
  · have hsorted : List.Pairwise keyLenLE (List.insertionSort keyLenLE linkMap) :=
      List.sorted_insertionSort keyLenLE linkMap
    have hmapped : List.Pairwise (fun a b : String × String => a.1.length ≤ b.1.length)
        ((List.insertionSort keyLenLE linkMap).map (fun e => (e.1, e.2.id))) :=
      hsorted.map _ (fun a b h => h)
    exact hmapped.sublist
      (archiveLoop_sublist rootPageId touched (List.insertionSort keyLenLE linkMap) [])
  · exact (archiveLoop_ancestor_invariant rootPageId touched
      (List.insertionSort keyLenLE linkMap) []).2

/-- **C3.** With PageIndex entries `./docs`, `./docs/a`, `./docs/b`, none of them
the root page and none touched this run, the archival pass issues exactly one
archive call — for `./docs` — and skips `./docs/a` and `./docs/b` because their
ancestor `./docs` was archived earlier in the run. -/
theorem archivalPass_docs_example (rootPageId : String) (touched : List String)
    (i1 i2 i3 l1 l2 l3 : String)
    (h1 : normalizeId i1 ≠ normalizeId rootPageId)
    (h2 : normalizeId i2 ≠ normalizeId rootPageId)
    (h3 : normalizeId i3 ≠ normalizeId rootPageId)
    (t1 : i1 ∉ touched) (t2 : i2 ∉ touched) (t3 : i3 ∉ touched) :
    archivalPass [("./docs", ⟨i1, l1⟩), ("./docs/a", ⟨i2, l2⟩), ("./docs/b", ⟨i3, l3⟩)]
        rootPageId touched = [("./docs", i1)] := by
  have hc1 : touched.contains i1 = false := by simpa using t1
  have hc2 : touched.contains i2 = false := by simpa using t2
  have hc3 : touched.contains i3 = false := by simpa using t3
  have hsort : List.insertionSort keyLenLE
      [("./docs", (⟨i1, l1⟩ : NotionPageLink)), ("./docs/a", ⟨i2, l2⟩), ("./docs/b", ⟨i3, l3⟩)] =
      [("./docs", ⟨i1, l1⟩), ("./docs/a", ⟨i2, l2⟩), ("./docs/b", ⟨i3, l3⟩)] := rfl
  rw [archivalPass, hsort]
  rw [archiveLoop, if_neg h1, if_neg (by simpa using t1), if_neg (by decide)]
  rw [archiveLoop, if_neg h2, if_neg (by simpa using t2), if_pos (by decide)]
  rw [archiveLoop, if_neg h3, if_neg (by simpa using t3), if_pos (by decide)]
  rw [archiveLoop]

/-- **C3 witness.** The example instantiated with concrete page ids, a concrete
root id and an empty touched set. -/
theorem archivalPass_docs_example_witness :
    archivalPass [("./docs", ⟨"p1", "u1"⟩), ("./docs/a", ⟨"p2", "u2"⟩), ("./docs/b", ⟨"p3", "u3"⟩)]
        "root0" [] = [("./docs", "p1")] :=
  archivalPass_docs_example "root0" [] "p1" "p2" "p3" "u1" "u2" "u3"
    (by decide) (by decide) (by decide) (by simp) (by simp) (by simp)

/-! ### Remote index builder: `collectCurrentFiles` (`src/sync-to-notion.ts:183-316`)

The remote store is embedded as an association list from page id to page data
(title and child-page ids); `pageId`s with no entry model ids whose retrieval
does not yield a `"page"` object (`src/sync-to-notion.ts:229-238`).  The
crawl of `processPageParallel` is embedded as one sequential interleaving of
the cooperative tasks, with the shared `processedIds` set, the registration
map and a fetch log carried in an explicit state; recursion is fueled, with
fuel consumed once per page visit, and `none` signalling fuel exhaustion.
The fetch log records each page id whose two API calls are issued, with the
depth at which this happens; the registration log records each PageIndex
insertion `(key, pageId)` with its depth.
-/

structure RemotePage where
  title : String
  childIds : List String
deriving Repr, DecidableEq

structure CrawlSt where
  visited : List String
  fetched : List (String × Nat)
  regs : List (String × String × Nat)
deriving Repr, DecidableEq

def lookupPage (store : List (String × RemotePage)) (pid : String) : Option RemotePage :=
  (store.find? (fun e => e.1 == pid)).map Prod.snd

def processPageParallel (store : List (String × RemotePage)) (rootPageId : String)
    (maxDepth : Nat) : Nat → CrawlSt → String → String → Nat → Option CrawlSt
  | 0, _, _, _, _ => none
  | fuel + 1, st, pageId, parentTitle, depth =>
    if st.visited.contains pageId ∨ maxDepth < depth then some st
    else
      let st1 : CrawlSt :=
        ⟨pageId :: st.visited, st.fetched ++ [(pageId, depth)], st.regs⟩
      match lookupPage store pageId with
      | none => some st1
      | some pg =>
        let st2 : CrawlSt :=
          ⟨st1.visited, st1.fetched, st1.regs ++ [(parentTitle ++ "/" ++ pg.title, pageId, depth)]⟩
        let newParentTitle :=
          if pageId = rootPageId then "." else parentTitle ++ "/" ++ pg.title
        pg.childIds.foldl
          (fun acc c => acc.bind fun s =>
            processPageParallel store rootPageId maxDepth fuel s c newParentTitle (depth + 1))
          (some st2)

/-- The sequential processing of a list of child pages: the `for (const childId
of childPageIds)` loop of `processPageParallel` (`src/sync-to-notion.ts:261-278`),
with an error (`none` = fuel exhaustion) aborting the remaining children. -/
def processChildren (store : List (String × RemotePage)) (rootPageId : String)
    (maxDepth fuel : Nat) (st : CrawlSt) (cs : List String) (pt : String) (d : Nat) :
    Option CrawlSt :=
  cs.foldl
    (fun acc c => acc.bind fun s =>
      processPageParallel store rootPageId maxDepth fuel s c pt d)
    (some st)

lemma foldl_bind_none (g : CrawlSt → String → Option CrawlSt) :
    ∀ cs : List String, cs.foldl (fun acc c => acc.bind fun s => g s c) none = none := by
  intro cs
  induction cs with
  | nil => rfl
  | cons c cs' ih => simpa using ih

lemma processChildren_nil (store : List (String × RemotePage)) (rootPageId : String)
    (maxDepth fuel : Nat) (st : CrawlSt) (pt : String) (d : Nat) :
    processChildren store rootPageId maxDepth fuel st [] pt d = some st := rfl

lemma processChildren_cons (store : List (String × RemotePage)) (rootPageId : String)
    (maxDepth fuel : Nat) (st : CrawlSt) (c : String) (cs : List String)
    (pt : String) (d : Nat) :
    processChildren store rootPageId maxDepth fuel st (c :: cs) pt d =
      match processPageParallel store rootPageId maxDepth fuel st c pt d with
      | none => none
      | some st' => processChildren store rootPageId maxDepth fuel st' cs pt d := by
  rw [processChildren]
  match hc : processPageParallel store rootPageId maxDepth fuel st c pt d with
  | none =>
    simp only [List.foldl_cons, Option.some_bind, hc]
    exact foldl_bind_none _ cs
  | some st' =>
    simp only [List.foldl_cons, Option.some_bind, hc]
    rfl

lemma processPageParallel_succ (store : List (String × RemotePage)) (rootPageId : String)
    (maxDepth fuel : Nat) (st : CrawlSt) (pageId parentTitle : String) (depth : Nat) :
    processPageParallel store rootPageId maxDepth (fuel + 1) st pageId parentTitle depth =
      if st.visited.contains pageId ∨ maxDepth < depth then some st
      else
        let st1 : CrawlSt :=
          ⟨pageId :: st.visited, st.fetched ++ [(pageId, depth)], st.regs⟩
        match lookupPage store pageId with
        | none => some st1
        | some pg =>
          let st2 : CrawlSt :=
            ⟨st1.visited, st1.fetched,
              st1.regs ++ [(parentTitle ++ "/" ++ pg.title, pageId, depth)]⟩
          let newParentTitle :=
            if pageId = rootPageId then "." else parentTitle ++ "/" ++ pg.title
          processChildren store rootPageId maxDepth fuel st2 pg.childIds newParentTitle
            (depth + 1) := rfl

/-- `collectCurrentFiles(notion, rootPageId, {maxDepth})`
(`src/sync-to-notion.ts:183-316`): start the crawl at the root page with
parent title `"."` and depth `0` on fresh state. -/
def collectCurrentFiles (store : List (String × RemotePage)) (rootPageId : String)
    (maxDepth fuel : Nat) : Option CrawlSt :=
  processPageParallel store rootPageId maxDepth fuel ⟨[], [], []⟩ rootPageId "." 0

/-- States whose fetch log and registration log only mention depths within the
`maxDepth` bound. -/
def DepthBounded (maxDepth : Nat) (st : CrawlSt) : Prop :=
  (∀ r ∈ st.regs, r.2.2 ≤ maxDepth) ∧ (∀ f ∈ st.fetched, f.2 ≤ maxDepth)

lemma crawl_depth_bounded (store : List (String × RemotePage)) (rootPageId : String)
    (maxDepth : Nat) :
    ∀ fuel,
      (∀ st pid pt d st', processPageParallel store rootPageId maxDepth fuel st pid pt d = some st' →
        DepthBounded maxDepth st → DepthBounded maxDepth st') ∧
      (∀ st cs pt d st', processChildren store rootPageId maxDepth fuel st cs pt d = some st' →
        DepthBounded maxDepth st → DepthBounded maxDepth st') := by
  intro fuel
  induction fuel with
  | zero =>
    constructor
    · intro st pid pt d st' h
      simp [processPageParallel] at h
    · intro st cs pt d st' h hst
      match cs with
      | [] => rw [processChildren_nil] at h; cases h; exact hst
      | c :: cs' =>
        rw [processChildren_cons] at h
        simp [processPageParallel] at h
  | succ fuel ih =>
    have hgo : ∀ st pid pt d st',
        processPageParallel store rootPageId maxDepth (fuel + 1) st pid pt d = some st' →
        DepthBounded maxDepth st → DepthBounded maxDepth st' := by
      intro st pid pt d st' h hst
      rw [processPageParallel_succ] at h
      by_cases hguard : st.visited.contains pid ∨ maxDepth < d
      · rw [if_pos hguard] at h
        cases h; exact hst
      · rw [if_neg hguard] at h
        have hd : d ≤ maxDepth := by
          rcases Nat.lt_or_ge maxDepth d with hlt | hge
          · exact absurd (Or.inr hlt) hguard
          · exact hge
        match hlook : lookupPage store pid with
        | none =>
          rw [hlook] at h
          simp only [Option.some.injEq] at h
          rw [← h]
          refine ⟨hst.1, ?_⟩
          intro f hf
          rcases List.mem_append.mp hf with h1 | h2
          · exact hst.2 f h1
          · simp at h2; rw [h2]; exact hd
        | some pg =>
          rw [hlook] at h
          refine (ih.2) _ _ _ _ _ h ⟨?_, ?_⟩
          · intro r hr
            rcases List.mem_append.mp hr with h1 | h2
            · exact hst.1 r h1
            · simp at h2; rw [h2]; exact hd
          · intro f hf
            rcases List.mem_append.mp hf with h1 | h2
            · exact hst.2 f h1
            · simp at h2; rw [h2]; exact hd
    refine ⟨hgo, ?_⟩
    intro st cs
    induction cs generalizing st with
    | nil =>
      intro pt d st' h hst
      rw [processChildren_nil] at h; cases h; exact hst
    | cons c cs' ihc =>
      intro pt d st' h hst
      rw [processChildren_cons] at h
      match hc : processPageParallel store rootPageId maxDepth (fuel + 1) st c pt d with
      | none => rw [hc] at h; simp at h
      | some st1 =>
        rw [hc] at h
        exact ihc st1 pt d st' h (hgo st c pt d st1 hc hst)

/-- **C5.** For every remote page tree and finite `maxDepth`, a completed crawl
fetches and registers only pages reached at depth at most `maxDepth` (the root
being at depth 0): every fetch-log entry and every PageIndex registration made
by `collectCurrentFiles` carries a depth `≤ maxDepth`. -/
theorem collectCurrentFiles_depth_bound (store : List (String × RemotePage))
    (rootPageId : String) (maxDepth fuel : Nat) (st : CrawlSt)
    (h : collectCurrentFiles store rootPageId maxDepth fuel = some st) :
    ((∀ r ∈ st.regs, r.2.2 ≤ maxDepth) ∧ (∀ f ∈ st.fetched, f.2 ≤ maxDepth)) :=
  (crawl_depth_bounded store rootPageId maxDepth fuel).1 ⟨[], [], []⟩ rootPageId "." 0 st h
    ⟨by simp, by simp⟩

/-- **C5 witness.** A four-level chain crawled with `maxDepth = 2`: pages at
depth 0, 1, 2 are fetched and registered, the page first reached at depth 3 is
neither, and the theorem's bound holds at the concrete final state. -/
theorem collectCurrentFiles_depth_bound_witness :
    (collectCurrentFiles
        [("A", ⟨"ta", ["B"]⟩), ("B", ⟨"tb", ["C"]⟩), ("C", ⟨"tc", ["D"]⟩), ("D", ⟨"td", []⟩)]
        "A" 2 10 =
      some ⟨["C", "B", "A"], [("A", 0), ("B", 1), ("C", 2)],
        [("./ta", "A", 0), ("./tb", "B", 1), ("./tb/tc", "C", 2)]⟩) ∧
    ((∀ r ∈ ([("./ta", "A", 0), ("./tb", "B", 1), ("./tb/tc", "C", 2)] :
        List (String × String × Nat)), r.2.2 ≤ 2) ∧
     (∀ f ∈ ([("A", 0), ("B", 1), ("C", 2)] : List (String × Nat)), f.2 ≤ 2)) := by
  constructor
  · decide
  · exact collectCurrentFiles_depth_bound
      [("A", ⟨"ta", ["B"]⟩), ("B", ⟨"tb", ["C"]⟩), ("C", ⟨"tc", ["D"]⟩), ("D", ⟨"td", []⟩)]
      "A" 2 10
      ⟨["C", "B", "A"], [("A", 0), ("B", 1), ("C", 2)],
        [("./ta", "A", 0), ("./tb", "B", 1), ("./tb/tc", "C", 2)]⟩ (by decide)

/-- States in which every fetched and registered page id was recorded while being
added to the visited set, and no id occurs twice in either log. -/
def OnceOnly (st : CrawlSt) : Prop :=
  ((∀ f ∈ st.fetched, f.1 ∈ st.visited) ∧ (st.fetched.map Prod.fst).Nodup ∧
   (∀ r ∈ st.regs, r.2.1 ∈ st.visited) ∧ (st.regs.map (fun r => r.2.1)).Nodup)

lemma crawl_once_only (store : List (String × RemotePage)) (rootPageId : String)
    (maxDepth : Nat) :
    ∀ fuel,
      (∀ st pid pt d st', processPageParallel store rootPageId maxDepth fuel st pid pt d = some st' →
        OnceOnly st → OnceOnly st') ∧
      (∀ st cs pt d st', processChildren store rootPageId maxDepth fuel st cs pt d = some st' →
        OnceOnly st → OnceOnly st') := by
  intro fuel
  induction fuel with
  | zero =>
    constructor
    · intro st pid pt d st' h
      simp [processPageParallel] at h
    · intro st cs pt d st' h hst
      match cs with
      | [] => rw [processChildren_nil] at h; cases h; exact hst
      | c :: cs' =>
        rw [processChildren_cons] at h
        simp [processPageParallel] at h
  | succ fuel ih =>
    have hgo : ∀ st pid pt d st',
        processPageParallel store rootPageId maxDepth (fuel + 1) st pid pt d = some st' →
        OnceOnly st → OnceOnly st' := by
      intro st pid pt d st' h hst
      rw [processPageParallel_succ] at h
      by_cases hguard : st.visited.contains pid ∨ maxDepth < d
      · rw [if_pos hguard] at h
        cases h; exact hst
      · rw [if_neg hguard] at h
        have hnv : pid ∉ st.visited := by
          intro hmem
          exact hguard (Or.inl (by simpa using hmem))
        obtain ⟨hfv, hfn, hrv, hrn⟩ := hst
        have hfv1 : ∀ f ∈ st.fetched ++ [(pid, d)], f.1 ∈ pid :: st.visited := by
          intro f hf
          rcases List.mem_append.mp hf with h1 | h2
          · exact List.mem_cons_of_mem _ (hfv f h1)
          · simp at h2; rw [h2]; exact List.mem_cons_self _ _
        have hfn1 : ((st.fetched ++ [(pid, d)]).map Prod.fst).Nodup := by
          rw [List.map_append, List.nodup_append]
          refine ⟨hfn, by simp, ?_⟩
          intro x hx
          simp only [List.map_cons, List.map_nil, List.mem_singleton]
          intro hxp
          rw [hxp] at hx
          obtain ⟨f, hf, hfst⟩ := List.mem_map.mp hx
          exact hnv (hfst ▸ hfv f hf)
        have hrv1 : ∀ r ∈ st.regs, r.2.1 ∈ pid :: st.visited := fun r hr =>
          List.mem_cons_of_mem _ (hrv r hr)
        match hlook : lookupPage store pid with
        | none =>
          rw [hlook] at h
          simp only [Option.some.injEq] at h
          rw [← h]
          exact ⟨hfv1, hfn1, hrv1, hrn⟩
        | some pg =>
          rw [hlook] at h
          refine (ih.2) _ _ _ _ _ h ?_
          refine ⟨hfv1, hfn1, ?_, ?_⟩
          · intro r hr
            rcases List.mem_append.mp hr with h1 | h2
            · exact hrv1 r h1
            · simp at h2; rw [h2]; exact List.mem_cons_self _ _
          · rw [List.map_append, List.nodup_append]
            refine ⟨hrn, by simp, ?_⟩
            intro x hx
            simp only [List.map_cons, List.map_nil, List.mem_singleton]
            intro hxp
            rw [hxp] at hx
            obtain ⟨r, hr, hfst⟩ := List.mem_map.mp hx
            exact hnv (hfst ▸ hrv r hr)
    refine ⟨hgo, ?_⟩
    intro st cs
    induction cs generalizing st with
    | nil =>
      intro pt d st' h hst
      rw [processChildren_nil] at h; cases h; exact hst
    | cons c cs' ihc =>
      intro pt d st' h hst
      rw [processChildren_cons] at h
      match hc : processPageParallel store rootPageId maxDepth (fuel + 1) st c pt d with
      | none => rw [hc] at h; simp at h
      | some st1 =>
        rw [hc] at h
        exact ihc st1 pt d st' h (hgo st c pt d st1 hc hst)

lemma crawl_visited_mono (store : List (String × RemotePage)) (rootPageId : String)
    (maxDepth : Nat) :
    ∀ fuel,
      (∀ st pid pt d st', processPageParallel store rootPageId maxDepth fuel st pid pt d = some st' →
        ∀ x ∈ st.visited, x ∈ st'.visited) ∧
      (∀ st cs pt d st', processChildren store rootPageId maxDepth fuel st cs pt d = some st' →
        ∀ x ∈ st.visited, x ∈ st'.visited) := by
  intro fuel
  induction fuel with
  | zero =>
    constructor
    · intro st pid pt d st' h
      simp [processPageParallel] at h
    · intro st cs pt d st' h
      match cs with
      | [] => rw [processChildren_nil] at h; cases h; exact fun x hx => hx
      | c :: cs' =>
        rw [processChildren_cons] at h
        simp [processPageParallel] at h
  | succ fuel ih =>
    have hgo : ∀ st pid pt d st',
        processPageParallel store rootPageId maxDepth (fuel + 1) st pid pt d = some st' →
        ∀ x ∈ st.visited, x ∈ st'.visited := by
      intro st pid pt d st' h x hx
      rw [processPageParallel_succ] at h
      by_cases hguard : st.visited.contains pid ∨ maxDepth < d
      · rw [if_pos hguard] at h
        cases h; exact hx
      · rw [if_neg hguard] at h
        match hlook : lookupPage store pid with
        | none =>
          rw [hlook] at h
          simp only [Option.some.injEq] at h
          rw [← h]
          exact List.mem_cons_of_mem _ hx
        | some pg =>
          rw [hlook] at h
          exact (ih.2) _ _ _ _ _ h x (List.mem_cons_of_mem _ hx)
    refine ⟨hgo, ?_⟩
    intro st cs
    induction cs generalizing st with
    | nil =>
      intro pt d st' h
      rw [processChildren_nil] at h; cases h; exact fun x hx => hx
    | cons c cs' ihc =>
      intro pt d st' h
      rw [processChildren_cons] at h
      match hc : processPageParallel store rootPageId maxDepth (fuel + 1) st c pt d with
      | none => rw [hc] at h; simp at h
      | some st1 =>
        rw [hc] at h
        exact fun x hx => ihc st1 pt d st' h x (hgo st c pt d st1 hc x hx)

/-- The number of store page ids not yet in the visited set: the crawl's
progress measure. -/
def unvisitedCount (store : List (String × RemotePage)) (st : CrawlSt) : Nat :=
  ((store.map Prod.fst).filter (fun i => !st.visited.contains i)).length

lemma length_filter_impl {α : Type} (l : List α) (p q : α → Bool)
    (h : ∀ a ∈ l, p a = true → q a = true) :
    (l.filter p).length ≤ (l.filter q).length := by
  induction l with
  | nil => simp
  | cons a l ih =>
    have hrest : ∀ b ∈ l, p b = true → q b = true := fun b hb => h b (List.mem_cons_of_mem _ hb)
    by_cases hp : p a = true
    · rw [List.filter_cons_of_pos hp, List.filter_cons_of_pos (h a (List.mem_cons_self _ _) hp)]
      simpa using ih hrest
    · rw [List.filter_cons_of_neg (by simpa using hp)]
      by_cases hq : q a = true
      · rw [List.filter_cons_of_pos hq]
        exact Nat.le_succ_of_le (ih hrest)
      · rw [List.filter_cons_of_neg (by simpa using hq)]
        exact ih hrest

lemma length_filter_unvisited_lt (pid : String) (visited : List String)
    (hnv : pid ∉ visited) :
    ∀ ids : List String, pid ∈ ids →
      (ids.filter (fun i => !((pid :: visited).contains i))).length <
        (ids.filter (fun i => !(visited.contains i))).length := by
  intro ids
  induction ids with
  | nil => intro h; simp at h
  | cons a rest ih =>
    intro hmem
    have himpl : ∀ i : String, (!((pid :: visited).contains i)) = true →
        (!(visited.contains i)) = true := by
      intro i hi
      simp only [Bool.not_eq_true', List.contains_eq_any_beq] at hi ⊢
      simp only [List.any_cons, Bool.or_eq_false_iff] at hi
      exact hi.2
    by_cases hap : a = pid
    · subst hap
      rw [List.filter_cons_of_neg (by simp), List.filter_cons_of_pos (by simpa using hnv)]
      exact Nat.lt_succ_of_le (length_filter_impl rest _ _ (fun i _ => himpl i))
    · by_cases hv : a ∈ visited
      · rw [List.filter_cons_of_neg (by simp [List.mem_cons_of_mem, hv]),
          List.filter_cons_of_neg (by simpa using hv)]
        exact ih (by rcases List.mem_cons.mp hmem with h | h; exact absurd h.symm hap; exact h)
      · have hnp : a ∉ pid :: visited := by
          intro hc
          rcases List.mem_cons.mp hc with h | h
          · exact hap h
          · exact hv h
        rw [List.filter_cons_of_pos (by simpa using hnp),
          List.filter_cons_of_pos (by simpa using hv)]
        exact Nat.succ_lt_succ
          (ih (by rcases List.mem_cons.mp hmem with h | h; exact absurd h.symm hap; exact h))

lemma lookupPage_some_mem (store : List (String × RemotePage)) (pid : String)
    (pg : RemotePage) (h : lookupPage store pid = some pg) :
    pid ∈ store.map Prod.fst := by
  rw [lookupPage] at h
  match hfind : store.find? (fun e => e.1 == pid) with
  | none => rw [hfind] at h; simp at h
  | some e =>
    have hmem := List.mem_of_find?_eq_some hfind
    have hpred := List.find?_some hfind
    simp only [beq_iff_eq] at hpred
    exact hpred ▸ List.mem_map.mpr ⟨e, hmem, rfl⟩

lemma crawl_fuel_enough (store : List (String × RemotePage)) (rootPageId : String)
    (maxDepth : Nat) :
    ∀ fuel,
      (∀ st pid pt d, unvisitedCount store st < fuel →
        processPageParallel store rootPageId maxDepth fuel st pid pt d ≠ none) ∧
      (∀ st cs pt d, unvisitedCount store st < fuel →
        processChildren store rootPageId maxDepth fuel st cs pt d ≠ none) := by
  intro fuel
  induction fuel with
  | zero =>
    constructor
    · intro st pid pt d hcount
      omega
    · intro st cs pt d hcount
      omega
  | succ fuel ih =>
    have hgo : ∀ st pid pt d, unvisitedCount store st < fuel + 1 →
        processPageParallel store rootPageId maxDepth (fuel + 1) st pid pt d ≠ none := by
      intro st pid pt d hcount
      rw [processPageParallel_succ]
      by_cases hguard : st.visited.contains pid ∨ maxDepth < d
      · rw [if_pos hguard]; simp
      · rw [if_neg hguard]
        have hnv : pid ∉ st.visited := by
          intro hmem
          exact hguard (Or.inl (by simpa using hmem))
        match hlook : lookupPage store pid with
        | none => simp
        | some pg =>
          have hmem := lookupPage_some_mem store pid pg hlook
          have hdrop := length_filter_unvisited_lt pid st.visited hnv (store.map Prod.fst) hmem
          exact (ih.2) _ _ _ _ (by unfold unvisitedCount at hcount ⊢; simp only; omega)
    refine ⟨hgo, ?_⟩
    intro st cs
    induction cs generalizing st with
    | nil =>
      intro pt d hcount
      rw [processChildren_nil]; simp
    | cons c cs' ihc =>
      intro pt d hcount
      rw [processChildren_cons]
      match hc : processPageParallel store rootPageId maxDepth (fuel + 1) st c pt d with
      | none => exact absurd hc (hgo st c pt d hcount)
      | some st1 =>
        have hmono := (crawl_visited_mono store rootPageId maxDepth (fuel + 1)).1
          st c pt d st1 hc
        have hcount1 : unvisitedCount store st1 ≤ unvisitedCount store st := by
          apply length_filter_impl
          intro a _ ha
          simp only [Bool.not_eq_true', List.contains_eq_any_beq] at ha ⊢
          by_contra hcon
          rw [Bool.not_eq_false] at hcon
          obtain ⟨x, hx, hbeq⟩ := List.any_eq_true.mp hcon
          have hax : a ∈ st1.visited := by
            have := hmono x hx
            simp only [beq_iff_eq] at hbeq
            rw [← hbeq] at this
            exact this
          have : st1.visited.any (fun x => a == x) = true :=
            List.any_eq_true.mpr ⟨a, hax, by simp⟩
          rw [this] at ha
          simp at ha
        exact ihc st1 pt d (by omega)

/-- **C10.** Within one `collectCurrentFiles` run each remote page id is
processed at most once — the fetch log and the registration log contain no
repeated page id — and, because visited ids are never re-entered, the crawl
terminates on every store, even one whose parent–child references form a
cycle: any fuel exceeding the number of store entries is enough for the crawl
to complete rather than exhaust its fuel. -/
theorem collectCurrentFiles_once_and_terminates (store : List (String × RemotePage))
    (rootPageId : String) (maxDepth fuel : Nat) :
    ((unvisitedCount store ⟨[], [], []⟩ < fuel →
        collectCurrentFiles store rootPageId maxDepth fuel ≠ none) ∧
     (∀ st, collectCurrentFiles store rootPageId maxDepth fuel = some st →
        ((st.fetched.map Prod.fst).Nodup ∧ (st.regs.map (fun r => r.2.1)).Nodup))) := by
  constructor
  · intro hcount
    exact (crawl_fuel_enough store rootPageId maxDepth fuel).1 ⟨[], [], []⟩ rootPageId "." 0
      hcount
  · intro st h
    have honce := (crawl_once_only store rootPageId maxDepth fuel).1 ⟨[], [], []⟩
      rootPageId "." 0 st h ⟨by simp, by simp, by simp, by simp⟩
    exact ⟨honce.2.1, honce.2.2.2⟩

/-- **C10 witness.** A two-page store whose parent–child references form a cycle
(`A → B → A`): with fuel 3 > 2 store entries the crawl completes, `B`'s
back-reference to the already-visited `A` is skipped, and each page is fetched
and registered exactly once. -/
theorem collectCurrentFiles_once_and_terminates_witness :
    ((unvisitedCount [("A", ⟨"ta", ["B"]⟩), ("B", ⟨"tb", ["A"]⟩)] ⟨[], [], []⟩ < 3 ∧
      collectCurrentFiles [("A", ⟨"ta", ["B"]⟩), ("B", ⟨"tb", ["A"]⟩)] "A" 9 3 ≠ none) ∧
     (collectCurrentFiles [("A", ⟨"ta", ["B"]⟩), ("B", ⟨"tb", ["A"]⟩)] "A" 9 3 =
        some ⟨["B", "A"], [("A", 0), ("B", 1)], [("./ta", "A", 0), ("./tb", "B", 1)]⟩ ∧
      ((([("A", 0), ("B", 1)] : List (String × Nat)).map Prod.fst).Nodup ∧
       (([("./ta", "A", 0), ("./tb", "B", 1)] :
          List (String × String × Nat)).map (fun r => r.2.1)).Nodup))) := by
  constructor
  · exact ⟨by decide,
      (collectCurrentFiles_once_and_terminates [("A", ⟨"ta", ["B"]⟩), ("B", ⟨"tb", ["A"]⟩)]
        "A" 9 3).1 (by decide)⟩
  · exact ⟨by decide,
      (collectCurrentFiles_once_and_terminates [("A", ⟨"ta", ["B"]⟩), ("B", ⟨"tb", ["A"]⟩)]
        "A" 9 3).2
        ⟨["B", "A"], [("A", 0), ("B", 1)], [("./ta", "A", 0), ("./tb", "B", 1)]⟩ (by decide)⟩

/-! ### Appending in chunks: `appendBlocksInChunks` (`src/sync-to-notion.ts:343-392`)

Physical `blocks.children.append` calls are modeled as `ACall` values; a call's
target is either a page/block id known up front or the id of the block created
at result position `resultIdx` of the `callIdx`-th call of the run (the
source's `response.results[index].id`).  A fuel argument bounds the recursion;
every theorem about emitted calls is proved for every fuel.
-/

/-- `findMaxDepth(block, depth)` (`src/sync-to-notion.ts:169-181`) evaluated on
`{children := bs}`: the deepest nesting level of the block forest `bs` below
the given start depth. -/
def findMaxDepthList : List Block → Nat → Nat
  | [], depth => depth
  | .mk _ _ _ cs :: rest, depth =>
    max (findMaxDepthList cs (depth + 1)) (findMaxDepthList rest depth)
termination_by bs _ => sizeOf bs
decreasing_by all_goals (simp_wf; try omega)

inductive Target where
  | page (id : String)
  | created (callIdx : Nat) (resultIdx : Nat)
deriving Repr, DecidableEq

structure ACall where
  idx : Nat
  target : Target
  blocks : List Block
  after : Option String
deriving Repr

/-- Whether the chunk loop detaches a block's nested children:
`limitChild && block.bulleted_list_item?.children`
(`src/sync-to-notion.ts:357-360`). -/
def qualifiesDetach (lc : Bool) (b : Block) : Bool :=
  lc && b.btype == "bulleted_list_item" && !b.children.isEmpty

/-- A chunk as sent over the wire: qualifying blocks have their children removed
(`delete block.bulleted_list_item?.children`). -/
def stripChunk (lc : Bool) (chunk : List Block) : List Block :=
  chunk.map (fun b => if qualifiesDetach lc b then b.withChildren [] else b)

/-- The `children` record of the chunk loop: positions (within the chunk) and
detached child lists of qualifying blocks, in ascending index order
(`src/sync-to-notion.ts:353-362`). -/
def childEntries (lc : Bool) (chunk : List Block) : List (Nat × List Block) :=
  chunk.enum.filterMap
    (fun e => if qualifiesDetach lc e.2 then some (e.1, e.2.children) else none)

/-- The chunk loop of `appendBlocksInChunks` (`src/sync-to-notion.ts:349-391`)
with `lc` the invocation's precomputed `limitChild` flag, `k` the global call
counter, and fuel consumed once per emitted call and per recursive invocation.
Returns the emitted calls and the next counter value. -/
def appendChunks : Nat → Bool → Target → Option String → List Block → Nat →
    List ACall × Nat
  | 0, _, _, _, _, k => ([], k)
  | fuel + 1, lc, target, after, blocks, k =>
    match blocks with
    | [] => ([], k)
    | _ :: _ =>
      let chunk := blocks.take 100
      let rest := blocks.drop 100
      let call : ACall := ⟨k, target, stripChunk lc chunk, after⟩
      let step := (childEntries lc chunk).foldl
        (fun (acc : List ACall × Nat) e =>
          let sub := appendChunks fuel (decide (findMaxDepthList e.2 0 > 3))
            (Target.created k e.1) none e.2 acc.2
          (acc.1 ++ sub.1, sub.2))
        ([], k + 1)
      let restRes := appendChunks fuel lc target after rest step.2
      (call :: step.1 ++ restRes.1, restRes.2)

/-- One invocation of `appendBlocksInChunks(pageId, blocks, afterId)`
(`src/sync-to-notion.ts:343-392`): compute `limitChild` from the blocks to
append, then run the chunk loop. -/
def appendBlocksInChunks (fuel : Nat) (target : Target) (blocks : List Block)
    (after : Option String) (k : Nat) : List ACall × Nat :=
  appendChunks fuel (decide (findMaxDepthList blocks 0 > 3)) target after blocks k

/-! ### Per-file content update: `updateBlocks` (`src/sync-to-notion.ts:581-627`)

`updateBlocks` gives the merge engine two callbacks: an append callback that
fixes up a missing anchor and physically appends via `appendBlocksInChunks`,
and a delete callback that only schedules block ids in `blockIdSetToDelete`;
the scheduled ids are physically deleted after the merge completes.  The merge
engine's instructions are embedded as `MergeOp` values, and a run produces the
trace of physical calls as `SyncEv` values.
-/

/-- `Set.add` on the insertion-ordered delete set. -/
def addToSet (x : String) (s : List String) : List String :=
  if s.contains x then s else s ++ [x]

/-- The append callback of `updateBlocks` (`src/sync-to-notion.ts:588-611`)
as a function of the page's existing blocks, the current delete set, and the
merge engine's arguments: returns the blocks actually appended, the anchor id
used, and the updated delete set.  A present-but-empty first-block id is
falsy in the source's truthiness test and leaves the anchor fix-up untaken. -/
def applyAppendCallback (existing : List Block) (st : List String)
    (blocks : List Block) (after : Option Block) :
    List Block × Option String × List String :=
  match after, existing with
  | none, f :: _ =>
    match f.id with
    | some fid =>
      if fid = "" then (blocks, none, st)
      else
        ((if st.contains fid then blocks else blocks ++ [f.clearId]),
          some fid, addToSet fid st)
    | none => (blocks, none, st)
  | _, _ => (blocks, after.bind Block.id, st)

inductive MergeOp where
  | append (blocks : List Block) (after : Option Block)
  | del (b : Block)
deriving Repr

inductive SyncEv where
  | append (c : ACall)
  | del (id : String)
deriving Repr

def SyncEv.isDel : SyncEv → Bool
  | .del _ => true
  | .append _ => false

/-- Processing of the merge engine's instructions by `updateBlocks`' two
callbacks (`src/sync-to-notion.ts:584-619`): appends are physically executed
at once through `appendBlocksInChunks`, deletions only accumulate in the
delete set.  Returns the append events, the final delete set, and the final
call counter. -/
def runMergeOps (fuel : Nat) (pageId : String) (existing : List Block) :
    List MergeOp → List String → Nat → List SyncEv × List String × Nat
  | [], st, k => ([], st, k)
  | .append bs after :: rest, st, k =>
    let r := applyAppendCallback existing st bs after
    let inv := appendBlocksInChunks fuel (Target.page pageId) r.1 r.2.1 k
    let next := runMergeOps fuel pageId existing rest r.2.2 inv.2
    (inv.1.map SyncEv.append ++ next.1, next.2)
  | .del b :: rest, st, k =>
    let st' := match b.id with
      | some i => addToSet i st
      | none => st
    runMergeOps fuel pageId existing rest st' k

/-- The full physical trace of one `updateBlocks` run on a given instruction
list: all append calls made during the merge, then one delete call per
scheduled id, in insertion order (`src/sync-to-notion.ts:620-626`). -/
def updateBlocksRun (fuel : Nat) (pageId : String) (existing : List Block)
    (ops : List MergeOp) : List SyncEv :=
  let r := runMergeOps fuel pageId existing ops [] 0
  r.1 ++ r.2.1.map SyncEv.del

/-! ### Block merge engine (`merge-blocks.ts`, modelled)

The repository's `mergeBlocks` implementation (`src/merge-blocks.ts`) is not
among the provided sources; only its call site in `updateBlocks` is.  The
engine is therefore modelled from the specification.
-/

/-- Modelled from the spec: the content-equality comparison of the Block Merge
Engine — "comparing blocks pairwise by a content-equality function (type +
payload, ignoring generated identity fields and nested children at the top
level of the comparison)". -/
def blockEq (a b : Block) : Bool :=
  a.btype == b.btype && a.payload == b.payload

/-- Modelled from the spec: recursive content equality of two block forests —
equal length, pairwise `blockEq`, and recursively content-equal children
("for unchanged content…"). -/
def blockContentEqList : List Block → List Block → Bool
  | [], [] => true
  | .mk t1 p1 i1 c1 :: es, .mk t2 p2 i2 c2 :: ds =>
    blockEq (.mk t1 p1 i1 c1) (.mk t2 p2 i2 c2) && blockContentEqList c1 c2 &&
      blockContentEqList es ds
  | _, _ => false
termination_by a b => sizeOf a + sizeOf b
decreasing_by all_goals (simp_wf; try omega)

/-- Modelled from the spec: the Block Merge Engine `merge(existingBlocks,
desiredBlocks, appendFn, deleteFn)` of `merge-blocks.ts`, absent from the
provided sources.  It walks both lists in parallel: content-equal heads are
left untouched except that their children are recursively re-merged; blocks
present only in `desiredBlocks` are appended after the last matched block
(`none` at the head); surplus or mismatched existing blocks are scheduled for
deletion.  It satisfies the spec's merge-minimality examples. -/
def mergeBlocks : List Block → List Block → Option Block → List MergeOp
  | [], [], _ => []
  | [], d :: ds, last => [.append (d :: ds) last]
  | e :: es, [], _ => (e :: es).map .del
  | .mk t1 p1 i1 c1 :: es, .mk t2 p2 i2 c2 :: ds, last =>
    if blockEq (.mk t1 p1 i1 c1) (.mk t2 p2 i2 c2) then
      mergeBlocks c1 c2 none ++ mergeBlocks es ds (some (.mk t1 p1 i1 c1))
    else
      .del (.mk t1 p1 i1 c1) :: mergeBlocks es (.mk t2 p2 i2 c2 :: ds) last
termination_by a b _ => sizeOf a + sizeOf b
decreasing_by all_goals (simp_wf; try omega)

/-- The per-file content update `updateBlocks(pageId, newBlocks)`
(`src/sync-to-notion.ts:581-627`): run the (modelled) merge engine over the
existing and desired blocks and process its instructions. -/
def updateBlocks (fuel : Nat) (pageId : String) (existing newBlocks : List Block) :
    List SyncEv :=
  updateBlocksRun fuel pageId existing (mergeBlocks existing newBlocks none)

/-- **C6.** When the merge engine requests an append with no anchor while the
page still has existing blocks (whose first block carries a usable id), the
append callback appends the requested blocks followed by a copy of the first
existing block with its identity cleared — the copy being omitted exactly when
that block is already scheduled for deletion — anchors the append after the
first existing block's id, and schedules that original first block for
deletion. -/
theorem applyAppendCallback_anchor_fixup (st : List String) (blocks : List Block)
    (f : Block) (rest : List Block) (fid : String)
    (hid : f.id = some fid) (hne : fid ≠ "") :
    ((applyAppendCallback (f :: rest) st blocks none =
        ((if st.contains fid then blocks else blocks ++ [f.clearId]),
          some fid, addToSet fid st)) ∧
     fid ∈ addToSet fid st) := by
  constructor
  · rw [applyAppendCallback]
    rw [hid]
    dsimp only
    rw [if_neg hne]
  · rw [addToSet]
    by_cases hc : st.contains fid
    · rw [if_pos hc]; simpa using hc
    · rw [if_neg hc]; simp

/-- **C6 witness.** A concrete anchor-less append onto a page whose first block
has id `"b1"`: with an empty delete set the copy is appended and `"b1"` is
scheduled; with `"b1"` already scheduled the copy is omitted. -/
theorem applyAppendCallback_anchor_fixup_witness :
    ((Block.mk "heading_1" "t" (some "b1") []).id = some "b1" ∧ "b1" ≠ "" ∧
     applyAppendCallback [Block.mk "heading_1" "t" (some "b1") []] []
        [Block.mk "paragraph" "new" none []] none =
       ([Block.mk "paragraph" "new" none [], Block.mk "heading_1" "t" none []],
         some "b1", ["b1"]) ∧
     applyAppendCallback [Block.mk "heading_1" "t" (some "b1") []] ["b1"]
        [Block.mk "paragraph" "new" none []] none =
       ([Block.mk "paragraph" "new" none []], some "b1", ["b1"])) := by
  refine ⟨rfl, by decide, ?_, ?_⟩
  · have h := (applyAppendCallback_anchor_fixup [] [Block.mk "paragraph" "new" none []]
      (Block.mk "heading_1" "t" (some "b1") []) [] "b1" rfl (by decide)).1
    simpa [addToSet, Block.clearId] using h
  · have h := (applyAppendCallback_anchor_fixup ["b1"] [Block.mk "paragraph" "new" none []]
      (Block.mk "heading_1" "t" (some "b1") []) [] "b1" rfl (by decide)).1
    simpa [addToSet, Block.clearId] using h

lemma runMergeOps_appends_only (fuel : Nat) (pageId : String) (existing : List Block) :
    ∀ ops st k, ∀ e ∈ (runMergeOps fuel pageId existing ops st k).1, e.isDel = false := by
  intro ops
  induction ops with
  | nil => intro st k e he; simp [runMergeOps] at he
  | cons op rest ih =>
    intro st k e he
    match op with
    | .append bs after =>
      rw [runMergeOps] at he
      simp only [List.mem_append] at he
      rcases he with h1 | h2
      · obtain ⟨c, _, hc⟩ := List.mem_map.mp h1
        rw [← hc]; rfl
      · exact ih _ _ e h2
    | .del b =>
      rw [runMergeOps] at he
      exact ih _ _ e he

lemma addToSet_nodup (x : String) (s : List String) (h : s.Nodup) :
    (addToSet x s).Nodup := by
  rw [addToSet]
  by_cases hc : s.contains x
  · rw [if_pos hc]; exact h
  · rw [if_neg hc]
    rw [List.nodup_append]
    exact ⟨h, List.nodup_singleton x, by
      intro y hy
      simp only [List.mem_singleton]
      intro hxy
      rw [hxy] at hy
      exact hc (by simpa using hy)⟩

lemma applyAppendCallback_nodup (existing : List Block) (st : List String)
    (blocks : List Block) (after : Option Block) (h : st.Nodup) :
    (applyAppendCallback existing st blocks after).2.2.Nodup := by
  match after, existing with
  | some b, ex =>
    have heq : applyAppendCallback ex st blocks (some b) =
        (blocks, (Option.some b).bind Block.id, st) := by
      cases ex <;> rfl
    rw [heq]; exact h
  | none, [] => exact h
  | none, f :: rest =>
    rw [applyAppendCallback]
    match hfid : f.id with
    | some fid =>
      dsimp only
      by_cases hf : fid = ""
      · rw [if_pos hf]; exact h
      · rw [if_neg hf]; exact addToSet_nodup fid st h
    | none => exact h

lemma runMergeOps_deleteSet_nodup (fuel : Nat) (pageId : String) (existing : List Block) :
    ∀ ops st k, st.Nodup → (runMergeOps fuel pageId existing ops st k).2.1.Nodup := by
  intro ops
  induction ops with
  | nil => intro st k h; simpa [runMergeOps] using h
  | cons op rest ih =>
    intro st k h
    match op with
    | .append bs after =>
      rw [runMergeOps]
      exact ih _ _ (applyAppendCallback_nodup existing st bs after h)
    | .del b =>
      rw [runMergeOps]
      match b.id with
      | some i => exact ih _ _ (addToSet_nodup i st h)
      | none => exact ih _ _ h

/-- **C7.** In every `updateBlocks` run, physical block deletions are
deduplicated by block id — the delete calls of the trace carry pairwise
distinct ids however often an id was scheduled — and the trace splits into all
append calls followed by all delete calls: every physical delete call is
issued only after every append call of that page's merge has completed. -/
theorem updateBlocksRun_dedup_and_deletes_last (fuel : Nat) (pageId : String)
    (existing : List Block) (ops : List MergeOp) :
    (((updateBlocksRun fuel pageId existing ops).filterMap
        (fun e => match e with | .del i => some i | .append _ => none)).Nodup ∧
     (∃ front back, updateBlocksRun fuel pageId existing ops = front ++ back ∧
        (∀ e ∈ front, SyncEv.isDel e = false) ∧ (∀ e ∈ back, SyncEv.isDel e = true))) := by
  constructor
  · rw [updateBlocksRun]
    rw [List.filterMap_append]
    have h1 : ((runMergeOps fuel pageId existing ops [] 0).1.filterMap
        (fun e => match e with | .del i => some i | .append _ => none)) = [] := by
      rw [List.filterMap_eq_nil_iff]
      intro e he
      have := runMergeOps_appends_only fuel pageId existing ops [] 0 e he
      match e with
      | .append c => rfl
      | .del i => simp [SyncEv.isDel] at this
    rw [h1, List.nil_append, List.filterMap_map]
    have h2 : ((runMergeOps fuel pageId existing ops [] 0).2.1.filterMap
        ((fun e => match e with | .del i => some i | .append _ => none) ∘ SyncEv.del)) =
        (runMergeOps fuel pageId existing ops [] 0).2.1 := by
      rw [List.filterMap_eq_map_iff_forall_eq_some.mpr ?_]
      · rw [List.map_id]
      · intro x _; rfl
    rw [h2]
    exact runMergeOps_deleteSet_nodup fuel pageId existing ops [] 0 List.nodup_nil
  · refine ⟨(runMergeOps fuel pageId existing ops [] 0).1,
      (runMergeOps fuel pageId existing ops [] 0).2.1.map SyncEv.del, rfl, ?_, ?_⟩
    · exact runMergeOps_appends_only fuel pageId existing ops [] 0
    · intro e he
      obtain ⟨i, _, hi⟩ := List.mem_map.mp he
      rw [← hi]; rfl

lemma mergeBlocks_content_equal :
    ∀ es ds last, blockContentEqList es ds = true → mergeBlocks es ds last = [] := by
  intro es ds last h
  induction es, ds, last using mergeBlocks.induct with
  | case1 _ => simp [mergeBlocks]
  | case2 d ds last => simp [blockContentEqList] at h
  | case3 e es _ => simp [blockContentEqList] at h
  | case4 t1 p1 i1 c1 es t2 p2 i2 c2 ds last heq ih1 ih2 =>
    rw [blockContentEqList] at h
    simp only [Bool.and_eq_true] at h
    rw [mergeBlocks, if_pos heq, ih1 h.1.2, ih2 h.2]
    rfl
  | case5 t1 p1 i1 c1 es t2 p2 i2 c2 ds last hne ih =>
    rw [blockContentEqList] at h
    simp only [Bool.and_eq_true] at h
    exact absurd h.1.1 hne

/-- **C1.** When the desired block list is content-equal to the page's existing
block list — as it is on a second sync run with no local changes — the Block
Merge Engine emits no appends and no deletions, and the resulting
`updateBlocks` run makes zero physical append calls and zero physical delete
calls. -/
theorem updateBlocks_idempotent (fuel : Nat) (pageId : String)
    (existing newBlocks : List Block)
    (h : blockContentEqList existing newBlocks = true) :
    (mergeBlocks existing newBlocks none = [] ∧
     updateBlocks fuel pageId existing newBlocks = []) := by
  have hm := mergeBlocks_content_equal existing newBlocks none h
  refine ⟨hm, ?_⟩
  rw [updateBlocks, hm, updateBlocksRun]
  rfl

/-- **C1 witness.** A concrete two-level page: existing blocks carry remote ids,
the regenerated desired blocks carry none, the contents are equal — the merge
emits no instructions and the update trace is empty. -/
theorem updateBlocks_idempotent_witness :
    (blockContentEqList
        [Block.mk "paragraph" "hello" (some "b1") [Block.mk "bulleted_list_item" "x" (some "b2") []],
         Block.mk "heading_1" "t" (some "b3") []]
        [Block.mk "paragraph" "hello" none [Block.mk "bulleted_list_item" "x" none []],
         Block.mk "heading_1" "t" none []] = true ∧
     (mergeBlocks
        [Block.mk "paragraph" "hello" (some "b1") [Block.mk "bulleted_list_item" "x" (some "b2") []],
         Block.mk "heading_1" "t" (some "b3") []]
        [Block.mk "paragraph" "hello" none [Block.mk "bulleted_list_item" "x" none []],
         Block.mk "heading_1" "t" none []] none = [] ∧
      updateBlocks 5 "pg"
        [Block.mk "paragraph" "hello" (some "b1") [Block.mk "bulleted_list_item" "x" (some "b2") []],
         Block.mk "heading_1" "t" (some "b3") []]
        [Block.mk "paragraph" "hello" none [Block.mk "bulleted_list_item" "x" none []],
         Block.mk "heading_1" "t" none []] = [])) := by
  have hceq : blockContentEqList
      [Block.mk "paragraph" "hello" (some "b1") [Block.mk "bulleted_list_item" "x" (some "b2") []],
       Block.mk "heading_1" "t" (some "b3") []]
      [Block.mk "paragraph" "hello" none [Block.mk "bulleted_list_item" "x" none []],
       Block.mk "heading_1" "t" none []] = true := by
    simp [blockContentEqList, blockEq, Block.btype, Block.payload]
  exact ⟨hceq, updateBlocks_idempotent 5 "pg" _ _ hceq⟩

lemma foldl_acc_mono (g : (List ACall × Nat) → (Nat × List Block) → List ACall × Nat)
    (hg : ∀ acc e, ∀ c ∈ acc.1, c ∈ (g acc e).1) :
    ∀ (entries : List (Nat × List Block)) (acc : List ACall × Nat),
      ∀ c ∈ acc.1, c ∈ (entries.foldl g acc).1 := by
  intro entries
  induction entries with
  | nil => intro acc c hc; simpa using hc
  | cons e es ih =>
    intro acc c hc
    rw [List.foldl_cons]
    exact ih (g acc e) c (hg acc e c hc)

lemma foldl_acc_exists (g : (List ACall × Nat) → (Nat × List Block) → List ACall × Nat)
    (Q : ACall → Prop) (e₀ : Nat × List Block)
    (hq : ∀ acc, ∃ c ∈ (g acc e₀).1, Q c)
    (hmono : ∀ acc e, ∀ c ∈ acc.1, c ∈ (g acc e).1) :
    ∀ (entries : List (Nat × List Block)) (acc : List ACall × Nat), e₀ ∈ entries →
      ∃ c ∈ (entries.foldl g acc).1, Q c := by
  intro entries
  induction entries with
  | nil => intro acc h; simp at h
  | cons e es ih =>
    intro acc hmem
    rw [List.foldl_cons]
    rcases List.mem_cons.mp hmem with heq | htail
    · subst heq
      obtain ⟨c, hc, hQ⟩ := hq acc
      exact ⟨c, foldl_acc_mono g hmono es (g acc e₀) c hc, hQ⟩
    · exact ih (g acc e) htail

lemma stripChunk_length (lc : Bool) (chunk : List Block) :
    (stripChunk lc chunk).length = chunk.length := by
  rw [stripChunk, List.length_map]

lemma appendChunks_cons_eq (fuel : Nat) (lc : Bool) (target : Target)
    (after : Option String) (b : Block) (bs : List Block) (k : Nat) :
    appendChunks (fuel + 1) lc target after (b :: bs) k =
      (ACall.mk k target (stripChunk lc ((b :: bs).take 100)) after ::
          (((childEntries lc ((b :: bs).take 100)).foldl
            (fun (acc : List ACall × Nat) e =>
              let sub := appendChunks fuel (decide (findMaxDepthList e.2 0 > 3))
                (Target.created k e.1) none e.2 acc.2
              (acc.1 ++ sub.1, sub.2)) ([], k + 1)).1 ++
          (appendChunks fuel lc target after ((b :: bs).drop 100)
            ((childEntries lc ((b :: bs).take 100)).foldl
              (fun (acc : List ACall × Nat) e =>
                let sub := appendChunks fuel (decide (findMaxDepthList e.2 0 > 3))
                  (Target.created k e.1) none e.2 acc.2
                (acc.1 ++ sub.1, sub.2)) ([], k + 1)).2).1),
        (appendChunks fuel lc target after ((b :: bs).drop 100)
          ((childEntries lc ((b :: bs).take 100)).foldl
            (fun (acc : List ACall × Nat) e =>
              let sub := appendChunks fuel (decide (findMaxDepthList e.2 0 > 3))
                (Target.created k e.1) none e.2 acc.2
              (acc.1 ++ sub.1, sub.2)) ([], k + 1)).2).2) := by
  rw [appendChunks]
  rfl

lemma appendChunks_blocks_le :
    ∀ (fuel : Nat) (lc : Bool) (target : Target) (after : Option String)
      (blocks : List Block) (k : Nat),
      ∀ c ∈ (appendChunks fuel lc target after blocks k).1, c.blocks.length ≤ 100 := by
  intro fuel
  induction fuel with
  | zero =>
    intro lc target after blocks k c hc
    simp [appendChunks] at hc
  | succ fuel ih =>
    intro lc target after blocks k c hc
    match blocks with
    | [] => simp [appendChunks] at hc
    | b :: bs =>
      rw [appendChunks_cons_eq] at hc
      rcases List.mem_cons.mp hc with hhead | htail
      · rw [hhead]
        show (stripChunk lc ((b :: bs).take 100)).length ≤ 100
        rw [stripChunk_length, List.length_take]
        exact Nat.min_le_left 100 _
      · rcases List.mem_append.mp htail with hfold | hrest
        · have hmono : ∀ (acc : List ACall × Nat) (e : Nat × List Block), ∀ c' ∈ acc.1,
              c' ∈ ((fun (acc : List ACall × Nat) e =>
                let sub := appendChunks fuel (decide (findMaxDepthList e.2 0 > 3))
                  (Target.created k e.1) none e.2 acc.2
                (acc.1 ++ sub.1, sub.2)) acc e).1 := by
            intro acc e c' hc'
            exact List.mem_append_left _ hc'
          have hfoldall : ∀ (entries : List (Nat × List Block)) (acc : List ACall × Nat),
              (∀ c' ∈ acc.1, c'.blocks.length ≤ 100) →
              ∀ c' ∈ (entries.foldl
                (fun (acc : List ACall × Nat) e =>
                  let sub := appendChunks fuel (decide (findMaxDepthList e.2 0 > 3))
                    (Target.created k e.1) none e.2 acc.2
                  (acc.1 ++ sub.1, sub.2)) acc).1, c'.blocks.length ≤ 100 := by
            intro entries
            induction entries with
            | nil => intro acc hacc c' hc'; simpa using hacc c' hc'
            | cons e es ihe =>
              intro acc hacc c' hc'
              rw [List.foldl_cons] at hc'
              refine ihe _ ?_ c' hc'
              intro c'' hc''
              rcases List.mem_append.mp hc'' with h1 | h2
              · exact hacc c'' h1
              · exact ih _ _ _ _ _ c'' h2
          exact hfoldall _ _ (by intro c' hc'; simp at hc') c hfold
        · exact ih _ _ _ _ _ c hrest

/-- **C9 counterexample.** A desired block list consisting of one paragraph
nested four levels deep: its maximum depth exceeds the safe threshold of 3,
yet the single append call issued still carries the paragraph with its nested
children attached inline, and no follow-up call is made — the source only
detaches `bulleted_list_item` children, not nested children in general. -/
theorem appendBlocksInChunks_deep_paragraph_not_detached :
    (findMaxDepthList
        [Block.mk "paragraph" "p1" none [Block.mk "paragraph" "p2" none
          [Block.mk "paragraph" "p3" none [Block.mk "paragraph" "p4" none []]]]] 0 > 3 ∧
     appendBlocksInChunks 5 (Target.page "pg")
        [Block.mk "paragraph" "p1" none [Block.mk "paragraph" "p2" none
          [Block.mk "paragraph" "p3" none [Block.mk "paragraph" "p4" none []]]]] none 0 =
       ([ACall.mk 0 (Target.page "pg")
          [Block.mk "paragraph" "p1" none [Block.mk "paragraph" "p2" none
            [Block.mk "paragraph" "p3" none [Block.mk "paragraph" "p4" none []]]]] none], 1) ∧
     (Block.mk "paragraph" "p1" none [Block.mk "paragraph" "p2" none
        [Block.mk "paragraph" "p3" none [Block.mk "paragraph" "p4" none []]]]).children ≠ []) := by
  refine ⟨?_, ?_, by simp [Block.children]⟩
  · simp [findMaxDepthList]
  · rw [appendBlocksInChunks]
    have hmd : findMaxDepthList
        [Block.mk "paragraph" "p1" none [Block.mk "paragraph" "p2" none
          [Block.mk "paragraph" "p3" none [Block.mk "paragraph" "p4" none []]]]] 0 = 4 := by
      simp [findMaxDepthList]
    rw [hmd]
    rw [appendChunks_cons_eq]
    simp [childEntries, stripChunk, qualifiesDetach, appendChunks, Block.btype, Block.children]

/-- **C9 (amended).** Every append call issued by `appendBlocksInChunks` — at
top level or in a recursive follow-up — carries at most `NOTION_BLOCK_LIMIT =
100` blocks.  When the blocks of an invocation nest deeper than the safe
threshold of 3, the children of its `bulleted_list_item` blocks (and only
those) are detached: the chunk call sends every bulleted list item
child-free, and each nonempty detached child list is appended by a separate
follow-up call, anchored on nothing, that targets the id of the block created
at the parent's position in the chunk call. -/
theorem appendBlocksInChunks_chunk_limit_and_bulleted_detach
    (fuel : Nat) (target : Target) (after : Option String) (blocks : List Block)
    (k : Nat) :
    ((∀ c ∈ (appendBlocksInChunks fuel target blocks after k).1, c.blocks.length ≤ 100) ∧
     (∀ f' : Nat, fuel = f' + 1 → blocks ≠ [] → findMaxDepthList blocks 0 > 3 →
       ((∃ rest, (appendBlocksInChunks fuel target blocks after k).1 =
           ACall.mk k target (stripChunk true (blocks.take 100)) after :: rest) ∧
        (∀ b ∈ stripChunk true (blocks.take 100),
           b.btype = "bulleted_list_item" → b.children = []) ∧
        (∀ e ∈ childEntries true (blocks.take 100), e.2 ≠ [] → 1 ≤ f' →
          ∃ c ∈ (appendBlocksInChunks fuel target blocks after k).1,
            (c.target = Target.created k e.1 ∧ c.after = none ∧
             c.blocks = stripChunk (decide (findMaxDepthList e.2 0 > 3)) (e.2.take 100)))))) := by
  constructor
  · intro c hc
    exact appendChunks_blocks_le fuel _ target after blocks k c hc
  · intro f' hfuel hne hdeep
    subst hfuel
    match blocks, hne with
    | b :: bs, _ =>
      have hlc : decide (findMaxDepthList (b :: bs) 0 > 3) = true := by
        simpa using hdeep
      constructor
      · rw [appendBlocksInChunks, hlc, appendChunks_cons_eq]
        exact ⟨_, rfl⟩
      constructor
      · intro bb hbb hbt
        rw [stripChunk] at hbb
        obtain ⟨a, ha, hae⟩ := List.mem_map.mp hbb
        by_cases hq : qualifiesDetach true a = true
        · rw [if_pos hq] at hae
          rw [← hae]
          match a with
          | .mk t p i c => rfl
        · rw [if_neg hq] at hae
          rw [qualifiesDetach] at hq
          simp only [Bool.true_and, Bool.and_eq_true, Bool.not_eq_true',
            beq_iff_eq] at hq
          rw [← hae] at hbt ⊢
          by_cases hbt' : a.btype = "bulleted_list_item"
          · have : ¬ a.children.isEmpty = false := fun hemp => hq ⟨hbt', hemp⟩
            rw [Bool.not_eq_false, List.isEmpty_iff] at this
            exact this
          · exact absurd hbt hbt'
      · intro e he hene hf'
        match f', hf' with
        | f'' + 1, _ =>
          rw [appendBlocksInChunks, hlc, appendChunks_cons_eq]
          have hq : ∀ acc : List ACall × Nat,
              ∃ c ∈ ((fun (acc : List ACall × Nat) e =>
                  let sub := appendChunks (f'' + 1) (decide (findMaxDepthList e.2 0 > 3))
                    (Target.created k e.1) none e.2 acc.2
                  (acc.1 ++ sub.1, sub.2)) acc e).1,
                (c.target = Target.created k e.1 ∧ c.after = none ∧
                 c.blocks = stripChunk (decide (findMaxDepthList e.2 0 > 3)) (e.2.take 100)) := by
            intro acc
            match e, hene with
            | (i, x :: xs), _ =>
              refine ⟨ACall.mk acc.2 (Target.created k i)
                (stripChunk (decide (findMaxDepthList (x :: xs) 0 > 3)) ((x :: xs).take 100))
                none, ?_, rfl, rfl, rfl⟩
              apply List.mem_append_right
              rw [appendChunks_cons_eq]
              exact List.mem_cons_self _ _
          have hmono : ∀ (acc : List ACall × Nat) (e' : Nat × List Block), ∀ c' ∈ acc.1,
              c' ∈ ((fun (acc : List ACall × Nat) e =>
                let sub := appendChunks (f'' + 1) (decide (findMaxDepthList e.2 0 > 3))
                  (Target.created k e.1) none e.2 acc.2
                (acc.1 ++ sub.1, sub.2)) acc e').1 := by
            intro acc e' c' hc'
            exact List.mem_append_left _ hc'
          obtain ⟨c, hcmem, hcq⟩ := foldl_acc_exists _ _ e hq hmono
            (childEntries true ((b :: bs).take 100)) ([], k + 1) he
          exact ⟨c, List.mem_cons_of_mem _ (List.mem_append_left _ hcmem), hcq⟩

/-- **C9 witness.** A deep bulleted list (depth 4): the chunk call sends the
top bulleted item child-free and a follow-up call targeting result 0 of call 0
carries the detached children; every call stays within 100 blocks. -/
theorem appendBlocksInChunks_chunk_limit_witness :
    ((5 : Nat) = 4 + 1 ∧
     ([Block.mk "bulleted_list_item" "l1" none [Block.mk "bulleted_list_item" "l2" none
        [Block.mk "bulleted_list_item" "l3" none [Block.mk "bulleted_list_item" "l4" none []]]]] :
        List Block) ≠ [] ∧
     findMaxDepthList
       [Block.mk "bulleted_list_item" "l1" none [Block.mk "bulleted_list_item" "l2" none
         [Block.mk "bulleted_list_item" "l3" none [Block.mk "bulleted_list_item" "l4" none []]]]]
       0 > 3 ∧
     (∃ rest, (appendBlocksInChunks 5 (Target.page "pg")
         [Block.mk "bulleted_list_item" "l1" none [Block.mk "bulleted_list_item" "l2" none
           [Block.mk "bulleted_list_item" "l3" none [Block.mk "bulleted_list_item" "l4" none []]]]]
         none 0).1 =
       ACall.mk 0 (Target.page "pg")
         (stripChunk true
           ([Block.mk "bulleted_list_item" "l1" none [Block.mk "bulleted_list_item" "l2" none
             [Block.mk "bulleted_list_item" "l3" none
               [Block.mk "bulleted_list_item" "l4" none []]]]].take 100)) none :: rest) ∧
     (∀ c ∈ (appendBlocksInChunks 5 (Target.page "pg")
         [Block.mk "bulleted_list_item" "l1" none [Block.mk "bulleted_list_item" "l2" none
           [Block.mk "bulleted_list_item" "l3" none [Block.mk "bulleted_list_item" "l4" none []]]]]
         none 0).1, c.blocks.length ≤ 100)) := by
  have h := appendBlocksInChunks_chunk_limit_and_bulleted_detach 5 (Target.page "pg") none
    [Block.mk "bulleted_list_item" "l1" none [Block.mk "bulleted_list_item" "l2" none
      [Block.mk "bulleted_list_item" "l3" none [Block.mk "bulleted_list_item" "l4" none []]]]] 0
  have hdeep : findMaxDepthList
      [Block.mk "bulleted_list_item" "l1" none [Block.mk "bulleted_list_item" "l2" none
        [Block.mk "bulleted_list_item" "l3" none [Block.mk "bulleted_list_item" "l4" none []]]]]
      0 > 3 := by
    simp [findMaxDepthList]
  have h2 := h.2 4 rfl (by simp) hdeep
  exact ⟨rfl, by simp, hdeep, h2.1, h.1⟩

end MdToNotion
